import Mathlib

/-!
Verification of `src/smiles_to_vla_smiles.py` (SMILES → binary → VLA-SMILES
pipeline) against its natural-language specification.

The Python source is shallowly embedded below.  Python integers are
arbitrary precision and are modelled as `Nat`.  The output matrix
`np.zeros((N, L // k))` is a float64 array, and the store
`vla_smiles[i1][i] = r20` converts the exact integer `r20` to float64:
round-to-nearest-even at 53 significand bits, raising `OverflowError`
when the rounded value reaches `2 ^ 1024`.  That conversion is modelled
exactly (`roundFloat`, `pyFloat`): every value a float64 cell can hold
here is a non-negative integer, so the matrix content is a `Nat` matrix
reached through `pyFloat`, and the transform is `Except`-valued.
Strings are Lean `String`s; Python's `s[j]` character indexing is
embedded with `List.getD`, whose default is never reached under the
in-range hypotheses carried by the theorems.
-/

namespace VLA

/-- The bit characters of `f'bin(n)'` in Python: the big-endian binary
digits of `n` (for `n = 0`, padding below makes the two agree). -/
def pyBin (n : Nat) : List Char :=
  (Nat.digits 2 n).reverse.map (fun d => Char.ofNat (48 + d))

/-- Embedding of Python's `f'\x7bord(c):08b\x7d'` applied to a code point `n`:
the binary digits of `n`, left-padded with `'0'` to a minimum width of 8.
For `n > 255` the result is longer than 8 characters (Python's `08` is a
minimum width, not a truncation). -/
def format08b (n : Nat) : String :=
  ⟨List.replicate (8 - (pyBin n).length) '0' ++ pyBin n⟩

/-- Embedding of `smiles_to_binary` (src lines 23–36): concatenate the
8-bit expansions of the code points and right-pad with `'0'` up to
`max_length` (Python's `'0' * padding_length` is empty when the
padding length is non-positive, matching `Nat` subtraction). -/
def smiles_to_binary (smiles : String) (max_length : Nat) : String :=
  let binary_sequence := (smiles.data.map (fun c => (format08b c.toNat).data)).flatten
  ⟨binary_sequence ++ List.replicate (max_length - binary_sequence.length) '0'⟩

/-- Embedding of `find_divisors` (src lines 42–47): `for i in range(1, n+1)`
collecting the `i` with `n % i == 0`. -/
def find_divisors (n : Nat) : List Nat :=
  (List.range' 1 n).filter (fun i => n % i == 0)

/-- Python's `int(c)` for a digit character (the transformer only ever
applies it to `'0'`/`'1'` under the pipeline's invariants). -/
def pyInt (c : Char) : Nat := c.toNat - 48

/-- The list `bits` built at src line 58:
`[int(smiles[i1][j]) for j in range(i*k, (i+1)*k)]`. -/
def groupBits (s : String) (k i : Nat) : List Nat :=
  (List.range k).map (fun j => pyInt (s.data.getD (i * k + j) '0'))

/-- The sum at src lines 60 and 63:
`sum(bit * 2 ** (k - idx - 1) for idx, bit in enumerate(bits))`. -/
def groupValue (k : Nat) (bits : List Nat) : Nat :=
  (bits.enum.map (fun p => p.2 * 2 ^ (k - p.1 - 1))).sum

/-- The errors the embedded pipeline can raise.  `emptyBatch` is
Python's `ValueError` from `max()` on an empty sequence (the spec's
`EmptyBatchError`); `overflow` is Python's `OverflowError` from
converting an integer `≥ 2 ^ 1024` (after rounding) to float64 at the
matrix store `vla_smiles[i1][i] = r20`. -/
inductive PipelineError
  | emptyBatch
  | overflow
  deriving DecidableEq

/-- Number of binary digits of `n` (0 for `n = 0`). -/
def bitLen (n : Nat) : Nat := if n = 0 then 0 else Nat.log2 n + 1

/-- IEEE-754 binary64 rounding (round-to-nearest, ties to even) of a
non-negative integer: integers below `2 ^ 53` are exact; above, the
53-bit significand keeps the top 53 bits of `n` and the remainder
rounds, half-to-even.  The result is the exact integer value of the
nearest double. -/
def roundFloat (n : Nat) : Nat :=
  if n < 2 ^ 53 then n
  else
    let e := bitLen n - 53
    if 2 ^ (e - 1) < n % 2 ^ e ∨ (n % 2 ^ e = 2 ^ (e - 1) ∧ (n / 2 ^ e) % 2 = 1) then
      (n / 2 ^ e + 1) * 2 ^ e
    else
      n / 2 ^ e * 2 ^ e

/-- Python's `float(n)` for a non-negative integer `n` (the conversion
performed by the numpy element assignment): the rounded value, or
`OverflowError` when it reaches `2 ^ 1024`. -/
def pyFloat (n : Nat) : Except PipelineError Nat :=
  if roundFloat n < 2 ^ 1024 then .ok (roundFloat n) else .error .overflow

/-- The exact integer `r20` the source computes for cell `(i1, i)`
(src lines 57–63), before the float64 store: the sentinel map
`bit if bit >= 0 else 2`, the first positional sum, the
`if r20 == 0: continue` early exit (the cell keeps the `np.zeros`
default `0`), the `0 if bit == 2 else bit` rewrite and the recomputed
sum. -/
def cellValue (s : String) (k i : Nat) : Nat :=
  let bits0 := groupBits s k i
  let bits1 := bits0.map (fun bit => if 0 ≤ bit then bit else 2)
  let r20 := groupValue k bits1
  if r20 = 0 then 0
  else groupValue k (bits1.map (fun bit => if bit = 2 then 0 else bit))

/-- Cell `(i1, i)` of the matrix including the float64 store
(src line 64): the skipped all-zero group leaves the `np.zeros` default
`0.0`; otherwise the recomputed `r20` goes through Python's
int-to-float64 conversion, which may raise `OverflowError`. -/
def cellFloat (s : String) (k i : Nat) : Except PipelineError Nat :=
  let bits0 := groupBits s k i
  let bits1 := bits0.map (fun bit => if 0 ≤ bit then bit else 2)
  let r20 := groupValue k bits1
  if r20 = 0 then .ok 0
  else pyFloat (groupValue k (bits1.map (fun bit => if bit = 2 then 0 else bit)))

/-- A Python loop whose body may raise: the first raise aborts the whole
computation and propagates (no partial result survives). -/
def exceptMap {E α β : Type} (f : α → Except E β) : List α → Except E (List β)
  | [] => .ok []
  | a :: as =>
    match f a with
    | .error e => .error e
    | .ok b =>
      match exceptMap f as with
      | .error e => .error e
      | .ok bs => .ok (b :: bs)

/-- Embedding of `transform_to_vla` (src lines 49–65): `sequence_length`
is the length of row 0 (`headD ""` stands for Python's `smiles[0]`,
total on the empty batch the theorems never use); the matrix has one row
per input string and `sequence_length // k` columns, each cell stored
through the float64 conversion, whose `OverflowError` aborts the whole
transform. -/
def transform_to_vla (smiles : List String) (k : Nat) :
    Except PipelineError (List (List Nat)) :=
  let sequence_length := (smiles.headD "").length
  exceptMap (fun s => exceptMap (fun i => cellFloat s k i)
    (List.range (sequence_length / k))) smiles

/-- The matrix of exact (unrounded) `r20` values: what the transform
stores when every group value is below `2 ^ 53`, where float64 is exact. -/
def transform_exact (smiles : List String) (k : Nat) : List (List Nat) :=
  let sequence_length := (smiles.headD "").length
  smiles.map (fun s => (List.range (sequence_length / k)).map (fun i => cellValue s k i))

/-- The value the float64 store leaves in cell `(i1, i)` when no
overflow occurs: the rounding of the exact `r20` (the skipped all-zero
branch leaves `0.0 = roundFloat 0`). -/
def cellStored (s : String) (k i : Nat) : Nat := roundFloat (cellValue s k i)

/-- The matrix of stored (rounded) cell values: the content of the
float64 array whenever the transform returns without `OverflowError`. -/
def transform_stored (smiles : List String) (k : Nat) : List (List Nat) :=
  let sequence_length := (smiles.headD "").length
  smiles.map (fun s => (List.range (sequence_length / k)).map (fun i => cellStored s k i))

/-- `max_smiles_length` as computed at src line 75:
`max(len(smiles) for smiles in smiles_list) * 8`.  On the empty batch
Python's `max` raises; callers guard that case (see
`process_smiles_file`). -/
def max_smiles_length (smiles_list : List String) : Nat :=
  ((smiles_list.map String.length).foldr Nat.max 0) * 8

/-- Embedding of the core of `process_smiles_file` (src lines 71–93)
with the file I/O stripped: the input is the list of lines, the output
is the encoded batch together with one `(k, matrix)` pair per divisor.
Python's `max()` raises `ValueError` on an empty batch before any
output file is written; that failure is returned as
`PipelineError.emptyBatch`, so no partial output exists.  An
`OverflowError` from any transform likewise propagates. -/
def process_smiles_file (smiles_list : List String) :
    Except PipelineError (List String × List (Nat × List (List Nat))) :=
  if smiles_list.isEmpty then .error .emptyBatch
  else
    let m := max_smiles_length smiles_list
    let binary_sequences := smiles_list.map (fun s => smiles_to_binary s m)
    let sequence_length := (binary_sequences.headD "").length
    let divisors := find_divisors sequence_length
    match exceptMap
        (fun k => (transform_to_vla binary_sequences k).map (fun M => (k, M)))
        divisors with
    | .error e => .error e
    | .ok mats => .ok (binary_sequences, mats)

/-! ### Specification-side definitions (independent of the embedding) -/

/-- Big-endian value of a list of bits: the claims' sum
`Σ bits[idx] · 2^(k−idx−1)` in closed recursive form. -/
def bitsValBE : List Nat → Nat
  | [] => 0
  | b :: bs => b * 2 ^ bs.length + bitsValBE bs

/-- The big-endian 8-bit expansion of a code point `n < 256`, written
directly from the spec's words: bit `i` is `(n / 2^(7−i)) % 2`. -/
def bits8 (n : Nat) : List Char :=
  (List.range 8).map (fun i => Char.ofNat (48 + n / 2 ^ (7 - i) % 2))

/-- The bit values of the `k`-bit slice `[j·k, (j+1)·k)` of row `i` of
the encoded batch, via `take`/`drop` (independent of the embedding's
`getD` indexing). -/
def sliceBits (enc : List String) (k i j : Nat) : List Nat :=
  (((enc.getD i "").data.drop (j * k)).take k).map pyInt

/-- The all-ones bit string of length `m` (a concrete member of the
claims' input domain, used by the counterexamples). -/
def repOnes (m : Nat) : String := ⟨List.replicate m '1'⟩

/-- The simplified per-cell computation of claim C9: identical to
`cellFloat` but omitting the sentinel-rewrite-and-recompute step
(src lines 62–63) — the first `r20` goes straight to the store. -/
def cellFloatSimple (s : String) (k i : Nat) : Except PipelineError Nat :=
  let bits0 := groupBits s k i
  let bits1 := bits0.map (fun bit => if 0 ≤ bit then bit else 2)
  let r20 := groupValue k bits1
  if r20 = 0 then .ok 0
  else pyFloat r20

/-- The transform with `cellFloatSimple` in place of `cellFloat`. -/
def transform_to_vla_simple (smiles : List String) (k : Nat) :
    Except PipelineError (List (List Nat)) :=
  let sequence_length := (smiles.headD "").length
  exceptMap (fun s => exceptMap (fun i => cellFloatSimple s k i)
    (List.range (sequence_length / k))) smiles

/-! ### Helper lemmas -/

theorem mem_find_divisors {L k : Nat} :
    k ∈ find_divisors L ↔ 1 ≤ k ∧ k ≤ L ∧ L % k = 0 := by
  simp only [find_divisors, List.mem_filter, List.mem_range'_1, beq_iff_eq]
  omega

theorem find_divisors_sorted (L : Nat) : List.Sorted (· < ·) (find_divisors L) := by
  apply List.Pairwise.sublist (List.filter_sublist _)
  rw [List.range'_eq_map_range]
  exact (List.pairwise_lt_range L).map _ (fun h => by omega)

/-- A member of a list is bounded by the right fold of `Nat.max` over it. -/
theorem mem_le_foldr_max (l : List Nat) (a : Nat) (ha : a ∈ l) :
    a ≤ l.foldr Nat.max 0 := by
  induction l with
  | nil => cases ha
  | cons b bs ih =>
    rcases List.mem_cons.mp ha with rfl | h
    · exact Nat.le_max_left _ _
    · exact le_trans (ih h) (Nat.le_max_right _ _)

theorem groupValue_enumFrom (bs : List Nat) :
    ∀ n, ((List.enumFrom n bs).map (fun p => p.2 * 2 ^ (n + bs.length - p.1 - 1))).sum
      = bitsValBE bs := by
  induction bs with
  | nil => intro n; rfl
  | cons b bs ih =>
    intro n
    rw [List.enumFrom_cons, List.map_cons, List.sum_cons]
    have he : ∀ p : Nat, n + (b :: bs).length - p - 1 = (n + 1) + bs.length - p - 1 := by
      simp only [List.length_cons]; omega
    simp only [he]
    rw [ih (n + 1), bitsValBE]
    have hexp : n + 1 + bs.length - n - 1 = bs.length := by omega
    rw [hexp]

/-- On a list of length `k`, the source's positional sum agrees with the
big-endian value. -/
theorem groupValue_eq_bitsValBE (bs : List Nat) :
    groupValue bs.length bs = bitsValBE bs := by
  have h := groupValue_enumFrom bs 0
  simpa only [groupValue, List.enum, Nat.zero_add] using h

theorem bitsValBE_lt (bs : List Nat) (h : ∀ b ∈ bs, b ≤ 1) :
    bitsValBE bs < 2 ^ bs.length := by
  induction bs with
  | nil => simp [bitsValBE]
  | cons b bs ih =>
    have hb : b ≤ 1 := h b (List.mem_cons_self b bs)
    have hrec := ih (fun x hx => h x (List.mem_cons_of_mem _ hx))
    have hmul : b * 2 ^ bs.length ≤ 2 ^ bs.length := by
      calc b * 2 ^ bs.length ≤ 1 * 2 ^ bs.length := Nat.mul_le_mul_right _ hb
        _ = 2 ^ bs.length := Nat.one_mul _
    rw [bitsValBE, List.length_cons, Nat.pow_succ]
    omega

theorem bitsValBE_eq_zero (bs : List Nat) (h : ∀ b ∈ bs, b = 0) :
    bitsValBE bs = 0 := by
  induction bs with
  | nil => rfl
  | cons b bs ih =>
    rw [bitsValBE, h b (List.mem_cons_self b bs),
      ih (fun x hx => h x (List.mem_cons_of_mem _ hx))]
    simp

theorem groupBits_le_one (s : String) (k i : Nat)
    (h : ∀ c ∈ s.data, c = '0' ∨ c = '1') :
    ∀ b ∈ groupBits s k i, b ≤ 1 := by
  intro b hb
  simp only [groupBits, List.mem_map, List.mem_range] at hb
  obtain ⟨j, _, rfl⟩ := hb
  rw [List.getD_eq_getElem?_getD]
  cases hx : s.data[i * k + j]? with
  | none => simp [pyInt]
  | some c =>
    rcases h c (List.getElem?_mem hx) with rfl | rfl <;> simp [pyInt]

theorem cellValue_eq_groupValue (s : String) (k i : Nat)
    (h2 : ∀ b ∈ groupBits s k i, b ≠ 2) :
    cellValue s k i = groupValue k (groupBits s k i) := by
  have hid : (groupBits s k i).map (fun bit => if 0 ≤ bit then bit else 2)
      = groupBits s k i := by simp
  have hid2 : (groupBits s k i).map (fun bit => if bit = 2 then 0 else bit)
      = groupBits s k i :=
    List.map_congr_left (fun b hb => by simp [h2 b hb]) |>.trans (List.map_id _)
  simp only [cellValue, hid, hid2]
  split <;> omega

theorem groupBits_eq_slice (s : String) (k j : Nat)
    (h : j * k + k ≤ s.data.length) :
    groupBits s k j = ((s.data.drop (j * k)).take k).map pyInt := by
  apply List.ext_getElem
  · simp only [groupBits, List.length_map, List.length_range, List.length_take,
      List.length_drop]
    omega
  · intro t h1 h2
    have ht : t < k := by
      simpa only [groupBits, List.length_map, List.length_range] using h1
    have hidx : j * k + t < s.data.length := by omega
    simp only [groupBits, List.getElem_map, List.getElem_range, List.getElem_take,
      List.getElem_drop]
    rw [List.getD_eq_getElem _ _ hidx]

/-- Access to a cell of a row-map matrix, via `getD`. -/
theorem matrixMap_getD (cell : String → Nat → Nat → Nat) (enc : List String)
    (k i j : Nat) (hi : i < enc.length) (hj : j < (enc.headD "").length / k) :
    ((enc.map (fun s => (List.range ((enc.headD "").length / k)).map
        (fun t => cell s k t))).getD i []).getD j 0 = cell (enc.getD i "") k j := by
  have h1 : (enc.map (fun s => (List.range ((enc.headD "").length / k)).map
        (fun t => cell s k t))).getD i []
      = (List.range ((enc.headD "").length / k)).map
          (fun t => cell (enc.getD i "") k t) := by
    rw [List.getD_eq_getElem _ _ (by simpa using hi), List.getElem_map,
      List.getD_eq_getElem _ _ hi]
  rw [h1, List.getD_eq_getElem _ _ (by simpa using hj), List.getElem_map,
    List.getElem_range]

/-- Access to a cell of the exact matrix, via `getD`. -/
theorem transform_getD (enc : List String) (k i j : Nat)
    (hi : i < enc.length) (hj : j < (enc.headD "").length / k) :
    ((transform_exact enc k).getD i []).getD j 0 = cellValue (enc.getD i "") k j := by
  simp only [transform_exact]
  exact matrixMap_getD cellValue enc k i j hi hj

theorem headD_length (enc : List String) (L : Nat) (hne : enc ≠ [])
    (hL : ∀ s ∈ enc, s.length = L) : (enc.headD "").length = L := by
  cases enc with
  | nil => exact absurd rfl hne
  | cons s rest => exact hL s (List.mem_cons_self s rest)

/-- Master lemma: on equal-length `'0'`/`'1'` rows, cell `(i, j)` of the
exact matrix is the big-endian value of the `k`-bit slice
`[j·k, (j+1)·k)` of row `i` (for any in-range `j < L / k`). -/
theorem cell_eq_bitsValBE (enc : List String) (L k i j : Nat)
    (hL : ∀ s ∈ enc, s.length = L)
    (h01 : ∀ s ∈ enc, ∀ c ∈ s.data, c = '0' ∨ c = '1')
    (hk0 : 0 < k) (hi : i < enc.length) (hj : j < L / k) :
    ((transform_exact enc k).getD i []).getD j 0 = bitsValBE (sliceBits enc k i j) := by
  have hne : enc ≠ [] := by intro h; subst h; simp at hi
  have hhead : (enc.headD "").length = L := headD_length enc L hne hL
  have hsmem : enc.getD i "" ∈ enc := by
    rw [List.getD_eq_getElem _ _ hi]; exact List.getElem_mem hi
  set s : String := enc.getD i "" with hs
  have hslen : s.data.length = L := hL s hsmem
  have hrange : j * k + k ≤ s.data.length := by
    have h1 : j + 1 ≤ L / k := hj
    have h2 : (j + 1) * k ≤ L / k * k := Nat.mul_le_mul_right _ h1
    have h3 : L / k * k ≤ L := Nat.div_mul_le_self L k
    have h4 : (j + 1) * k = j * k + k := Nat.succ_mul j k
    omega
  have hb1 : ∀ b ∈ groupBits s k j, b ≤ 1 :=
    groupBits_le_one s k j (h01 s hsmem)
  rw [transform_getD enc k i j hi (by rw [hhead]; exact hj)]
  rw [cellValue_eq_groupValue s k j (fun b hb => by have := hb1 b hb; omega)]
  rw [groupBits_eq_slice s k j hrange]
  have hlen : (((s.data.drop (j * k)).take k).map pyInt).length = k := by
    simp only [List.length_map, List.length_take, List.length_drop]
    omega
  have hgv := groupValue_eq_bitsValBE (((s.data.drop (j * k)).take k).map pyInt)
  rw [hlen] at hgv
  simp only [sliceBits, ← hs]
  exact hgv

/-! ### Claim theorems -/

/-- C3: for every positive `L`, `find_divisors L` is sorted strictly
ascending, contains `k` iff `1 ≤ k ≤ L` and `L % k = 0`, and contains
both `1` and `L`. -/
theorem c3_find_divisors_exact (L : Nat) (hL : 0 < L) :
    List.Sorted (· < ·) (find_divisors L) ∧
      (∀ k, k ∈ find_divisors L ↔ 1 ≤ k ∧ k ≤ L ∧ L % k = 0) ∧
      1 ∈ find_divisors L ∧ L ∈ find_divisors L := by
  refine ⟨find_divisors_sorted L, fun k => mem_find_divisors, ?_, ?_⟩
  · exact mem_find_divisors.mpr ⟨le_refl 1, hL, Nat.mod_one L⟩
  · exact mem_find_divisors.mpr ⟨hL, le_refl L, Nat.mod_self L⟩

theorem c3_find_divisors_exact_witness :
    0 < 12 ∧
      (List.Sorted (· < ·) (find_divisors 12) ∧
        (∀ k, k ∈ find_divisors 12 ↔ 1 ≤ k ∧ k ≤ 12 ∧ 12 % k = 0) ∧
        1 ∈ find_divisors 12 ∧ 12 ∈ find_divisors 12) :=
  ⟨by decide, c3_find_divisors_exact 12 (by decide)⟩

/-- C7: on the empty raw batch the pipeline fails with the empty-batch
error (Python's `max()` on an empty sequence) and produces no output:
neither an encoded batch nor any matrix is returned. -/
theorem c7_empty_batch :
    process_smiles_file [] = Except.error PipelineError.emptyBatch := rfl

/-- Per-row form of the master lemma, with the strict bound. -/
theorem cellValue_slice (s : String) (L k t : Nat) (hs : s.length = L)
    (h01 : ∀ c ∈ s.data, c = '0' ∨ c = '1')
    (hk0 : 0 < k) (ht : t < L / k) :
    cellValue s k t = bitsValBE (((s.data.drop (t * k)).take k).map pyInt) ∧
      cellValue s k t < 2 ^ k := by
  have hslen : s.data.length = L := hs
  have hrange : t * k + k ≤ s.data.length := by
    have h2 : (t + 1) * k ≤ L / k * k := Nat.mul_le_mul_right _ ht
    have h3 : L / k * k ≤ L := Nat.div_mul_le_self L k
    have h4 : (t + 1) * k = t * k + k := Nat.succ_mul t k
    omega
  have hb1 : ∀ b ∈ groupBits s k t, b ≤ 1 := groupBits_le_one s k t h01
  have heq : cellValue s k t = bitsValBE (((s.data.drop (t * k)).take k).map pyInt) := by
    rw [cellValue_eq_groupValue s k t (fun b hb => by have := hb1 b hb; omega),
      groupBits_eq_slice s k t hrange]
    have hlen : (((s.data.drop (t * k)).take k).map pyInt).length = k := by
      simp only [List.length_map, List.length_take, List.length_drop]
      omega
    have hgv := groupValue_eq_bitsValBE (((s.data.drop (t * k)).take k).map pyInt)
    rw [hlen] at hgv
    exact hgv
  refine ⟨heq, ?_⟩
  rw [heq]
  have hlen : (((s.data.drop (t * k)).take k).map pyInt).length = k := by
    simp only [List.length_map, List.length_take, List.length_drop]
    omega
  have hle : ∀ b ∈ ((s.data.drop (t * k)).take k).map pyInt, b ≤ 1 := by
    intro b hb
    simp only [List.mem_map] at hb
    obtain ⟨c, hc, rfl⟩ := hb
    rcases h01 c (List.mem_of_mem_drop (List.mem_of_mem_take hc)) with rfl | rfl <;>
      simp [pyInt]
  have := bitsValBE_lt _ hle
  rwa [hlen] at this

/-- Shape of a row-map matrix: one row per input string, `L / k`
columns (floor division, as in the source). -/
theorem matrixMap_shape (cell : String → Nat → Nat → Nat) (enc : List String)
    (L k : Nat) (hL : ∀ s ∈ enc, s.length = L) :
    (enc.map (fun s => (List.range ((enc.headD "").length / k)).map
        (fun t => cell s k t))).length = enc.length ∧
      ∀ row ∈ enc.map (fun s => (List.range ((enc.headD "").length / k)).map
        (fun t => cell s k t)), row.length = L / k := by
  constructor
  · simp
  · intro row hrow
    simp only [List.mem_map] at hrow
    obtain ⟨s, hs, rfl⟩ := hrow
    have hne : enc ≠ [] := List.ne_nil_of_mem hs
    simp only [List.length_map, List.length_range]
    rw [headD_length enc L hne hL]

theorem transform_stored_shape (enc : List String) (L k : Nat)
    (hL : ∀ s ∈ enc, s.length = L) :
    (transform_stored enc k).length = enc.length ∧
      ∀ row ∈ transform_stored enc k, row.length = L / k := by
  simp only [transform_stored]
  exact matrixMap_shape cellStored enc L k hL

/-- Integers below `2 ^ 53` are exact in float64. -/
theorem roundFloat_small (n : Nat) (h : n < 2 ^ 53) : roundFloat n = n := by
  unfold roundFloat
  rw [if_pos h]

/-- Rounding an integer below `2 ^ k` cannot exceed `2 ^ k` (the bound
is attained: see the C4 counterexample). -/
theorem roundFloat_le_pow (n k : Nat) (h : n < 2 ^ k) : roundFloat n ≤ 2 ^ k := by
  by_cases hs : n < 2 ^ 53
  · rw [roundFloat_small n hs]; omega
  · have hn0 : n ≠ 0 := by
      intro h0
      subst h0
      exact hs (pow_pos (by norm_num) 53)
    have hbit : bitLen n = Nat.log 2 n + 1 := by
      simp [bitLen, hn0, Nat.log2_eq_log_two]
    have hup : n < 2 ^ bitLen n := by
      rw [hbit]
      exact Nat.lt_pow_succ_log_self (by norm_num) n
    have hlow : 2 ^ (bitLen n - 1) ≤ n := by
      rw [hbit]
      simpa using Nat.pow_log_le_self 2 hn0
    have hbk : bitLen n ≤ k := by
      by_contra hgt
      push_neg at hgt
      have hmono : (2 : Nat) ^ k ≤ 2 ^ (bitLen n - 1) :=
        Nat.pow_le_pow_right (by norm_num) (by omega)
      omega
    have hform : roundFloat n
        = if 2 ^ (bitLen n - 53 - 1) < n % 2 ^ (bitLen n - 53)
            ∨ (n % 2 ^ (bitLen n - 53) = 2 ^ (bitLen n - 53 - 1)
              ∧ (n / 2 ^ (bitLen n - 53)) % 2 = 1)
          then (n / 2 ^ (bitLen n - 53) + 1) * 2 ^ (bitLen n - 53)
          else n / 2 ^ (bitLen n - 53) * 2 ^ (bitLen n - 53) := by
      simp only [roundFloat, if_neg hs]
    rw [hform]
    set e := bitLen n - 53 with he
    have hepos : (0 : Nat) < 2 ^ e := pow_pos (by norm_num) e
    have hqe : (n / 2 ^ e + 1) * 2 ^ e ≤ 2 ^ k := by
      have hsplit : (2 : Nat) ^ (k - e) * 2 ^ e = 2 ^ k := by
        rw [← pow_add]
        congr 1
        omega
      have hq : n / 2 ^ e < 2 ^ (k - e) := by
        rw [Nat.div_lt_iff_lt_mul hepos, hsplit]
        exact h
      calc (n / 2 ^ e + 1) * 2 ^ e
          ≤ 2 ^ (k - e) * 2 ^ e := Nat.mul_le_mul_right _ hq
        _ = 2 ^ k := hsplit
    split
    · exact hqe
    · calc n / 2 ^ e * 2 ^ e
          ≤ (n / 2 ^ e + 1) * 2 ^ e := Nat.mul_le_mul_right _ (by omega)
        _ ≤ 2 ^ k := hqe

theorem exceptMap_ok_of_forall {E α β : Type} (f : α → Except E β) (g : α → β)
    (l : List α) (h : ∀ a ∈ l, f a = .ok (g a)) :
    exceptMap f l = .ok (l.map g) := by
  induction l with
  | nil => rfl
  | cons a as ih =>
    simp only [exceptMap, h a (List.mem_cons_self a as),
      ih (fun x hx => h x (List.mem_cons_of_mem _ hx)), List.map_cons]

theorem exceptMap_congr {E α β : Type} {f g : α → Except E β} (l : List α)
    (h : ∀ a ∈ l, f a = g a) : exceptMap f l = exceptMap g l := by
  induction l with
  | nil => rfl
  | cons a as ih =>
    simp only [exceptMap, h a (List.mem_cons_self a as),
      ih (fun x hx => h x (List.mem_cons_of_mem _ hx))]

theorem exceptMap_eq_of_forall₂ {E α β : Type} {R : α → α → Prop}
    {f : α → Except E β} {l l' : List α} (h : List.Forall₂ R l l')
    (hf : ∀ a b, R a b → f a = f b) : exceptMap f l = exceptMap f l' := by
  induction h with
  | nil => rfl
  | cons hab _ ih => simp only [exceptMap, hf _ _ hab, ih]

/-- When the rounded cell value fits in float64, the faithful cell
computation succeeds and returns the stored (rounded) value. -/
theorem cellFloat_ok (s : String) (L k t : Nat) (hs : s.length = L)
    (h01 : ∀ c ∈ s.data, c = '0' ∨ c = '1')
    (hk0 : 0 < k) (hk1023 : k ≤ 1023) (ht : t < L / k) :
    cellFloat s k t = .ok (cellStored s k t) := by
  have hb := (cellValue_slice s L k t hs h01 hk0 ht).2
  have hround : roundFloat (cellValue s k t) < 2 ^ 1024 := by
    have h2 := roundFloat_le_pow (cellValue s k t) k hb
    have h3 : (2 : Nat) ^ k ≤ 2 ^ 1023 := Nat.pow_le_pow_right (by norm_num) hk1023
    have h4 : (2 : Nat) ^ 1023 < 2 ^ 1024 :=
      Nat.pow_lt_pow_right (by norm_num) (by norm_num)
    omega
  by_cases hr : groupValue k
      ((groupBits s k t).map (fun bit => if 0 ≤ bit then bit else 2)) = 0
  · simp only [cellFloat, cellStored, cellValue]
    rw [if_pos hr, if_pos hr, roundFloat_small 0 (pow_pos (by norm_num) 53)]
  · simp only [cellValue] at hround
    rw [if_neg hr] at hround
    simp only [cellFloat, cellStored, cellValue]
    rw [if_neg hr, if_neg hr]
    simp only [pyFloat]
    rw [if_pos hround]

/-- On `'0'`/`'1'` rows with `1 ≤ k ≤ 1023` every group value is below
`2 ^ 1023`, so no float64 overflow occurs: the transform succeeds and
returns the stored (rounded) matrix. -/
theorem transform_to_vla_ok (enc : List String) (L k : Nat)
    (hL : ∀ s ∈ enc, s.length = L)
    (h01 : ∀ s ∈ enc, ∀ c ∈ s.data, c = '0' ∨ c = '1')
    (hk0 : 0 < k) (hk1023 : k ≤ 1023) :
    transform_to_vla enc k = .ok (transform_stored enc k) := by
  simp only [transform_to_vla, transform_stored]
  apply exceptMap_ok_of_forall
  intro s hs
  have hne : enc ≠ [] := List.ne_nil_of_mem hs
  apply exceptMap_ok_of_forall
  intro t ht
  rw [List.mem_range, headD_length enc L hne hL] at ht
  exact cellFloat_ok s L k t (hL s hs) (h01 s hs) hk0 hk1023 ht

/-- Below group size 54 every group value is under `2 ^ 53`, where
float64 is exact: the stored matrix is the exact matrix. -/
theorem transform_stored_eq_exact (enc : List String) (L k : Nat)
    (hL : ∀ s ∈ enc, s.length = L)
    (h01 : ∀ s ∈ enc, ∀ c ∈ s.data, c = '0' ∨ c = '1')
    (hk0 : 0 < k) (hk53 : k ≤ 53) :
    transform_stored enc k = transform_exact enc k := by
  simp only [transform_stored, transform_exact]
  apply List.map_congr_left
  intro s hs
  apply List.map_congr_left
  intro t ht
  have hne : enc ≠ [] := List.ne_nil_of_mem hs
  rw [List.mem_range, headD_length enc L hne hL] at ht
  have hb := (cellValue_slice s L k t (hL s hs) (h01 s hs) hk0 ht).2
  have hsmall : cellValue s k t < 2 ^ 53 :=
    lt_of_lt_of_le hb (Nat.pow_le_pow_right (by norm_num) hk53)
  simp only [cellStored]
  exact roundFloat_small _ hsmall

theorem bitsValBE_replicate_one (n : Nat) :
    bitsValBE (List.replicate n 1) = 2 ^ n - 1 := by
  induction n with
  | zero => rfl
  | succ n ih =>
    rw [List.replicate_succ, bitsValBE, List.length_replicate, ih]
    have h1 : (0 : Nat) < 2 ^ n := pow_pos (by norm_num) n
    have h2 : (2 : Nat) ^ (n + 1) = 2 ^ n * 2 := pow_succ 2 n
    omega

/-- The first group of the all-ones string is all ones, so the store
receives exactly `2 ^ k - 1`. -/
theorem cellFloat_ones (m k : Nat) (hk0 : 0 < k) (hkm : k ≤ m) :
    cellFloat (repOnes m) k 0 = pyFloat (2 ^ k - 1) := by
  have hgb : groupBits (repOnes m) k 0 = List.replicate k 1 := by
    have h1 : ∀ j ∈ List.range k,
        pyInt ((repOnes m).data.getD (0 * k + j) '0') = (fun _ : Nat => 1) j := by
      intro j hj
      rw [List.mem_range] at hj
      rw [show (repOnes m).data = List.replicate m '1' from rfl,
        List.getD_eq_getElem _ _ (by simp only [List.length_replicate]; omega),
        List.getElem_replicate]
      rfl
    rw [groupBits, List.map_congr_left h1, List.map_const', List.length_range]
  have hone : (List.replicate k 1).map (fun bit => if 0 ≤ bit then bit else 2)
      = List.replicate k (1 : Nat) := by simp
  have htwo : (List.replicate k 1).map (fun bit => if bit = 2 then 0 else bit)
      = List.replicate k (1 : Nat) := by simp
  have hgv : groupValue k (List.replicate k 1) = 2 ^ k - 1 := by
    have h1 := groupValue_eq_bitsValBE (List.replicate k (1 : Nat))
    rw [List.length_replicate] at h1
    rw [h1, bitsValBE_replicate_one]
  have hnz : 2 ^ k - 1 ≠ 0 := by
    have h2 : (2 : Nat) ^ 1 ≤ 2 ^ k := Nat.pow_le_pow_right (by norm_num) hk0
    norm_num at h2
    omega
  simp only [cellFloat, hgb, hone, hgv, htwo]
  rw [if_neg hnz]

/-- Evaluation of the transform on a single all-ones string whose
length floor-divides to one group. -/
theorem transform_ones (m k : Nat) (hk0 : 0 < k) (hkm : k ≤ m)
    (hdiv : m / k = 1) :
    transform_to_vla [repOnes m] k
      = (pyFloat (2 ^ k - 1)).map (fun v => [[v]]) := by
  have hlen : ([repOnes m].headD "").length = m := by
    show (List.replicate m '1').length = m
    simp
  rcases hpf : pyFloat (2 ^ k - 1) with e | v <;>
    simp only [transform_to_vla, hlen, hdiv, show List.range 1 = [0] from rfl,
      exceptMap, cellFloat_ones m k hk0 hkm, hpf, Except.map]

theorem log2_two_pow_sub_one (k : Nat) (hk : 1 ≤ k) :
    Nat.log2 (2 ^ k - 1) = k - 1 := by
  rw [Nat.log2_eq_log_two]
  apply Nat.log_eq_of_pow_le_of_lt_pow
  · have h1 : (2 : Nat) ^ k = 2 ^ (k - 1) * 2 := by
      rw [← pow_succ]
      congr 1
      omega
    have h2 : (0 : Nat) < 2 ^ (k - 1) := pow_pos (by norm_num) _
    omega
  · have h2 : (0 : Nat) < 2 ^ k := pow_pos (by norm_num) _
    have h3 : k - 1 + 1 = k := by omega
    rw [h3]
    omega

theorem bitLen_two_pow_sub_one (k : Nat) (hk : 1 ≤ k) :
    bitLen (2 ^ k - 1) = k := by
  have hnz : 2 ^ k - 1 ≠ 0 := by
    have h2 : (2 : Nat) ^ 1 ≤ 2 ^ k := Nat.pow_le_pow_right (by norm_num) hk
    norm_num at h2
    omega
  simp only [bitLen, hnz, if_false, log2_two_pow_sub_one k hk]
  omega

/-- `2 ^ k - 1` (an all-ones significand of `k > 53` bits) rounds UP to
`2 ^ k` in float64: the remainder is above the halfway point (at `k = 54`
it is exactly halfway and the odd significand forces rounding up). -/
theorem roundFloat_two_pow_sub_one (k : Nat) (hk : 54 ≤ k) :
    roundFloat (2 ^ k - 1) = 2 ^ k := by
  have hbig : ¬ (2 ^ k - 1 < 2 ^ 53) := by
    have h1 : (2 : Nat) ^ 54 ≤ 2 ^ k := Nat.pow_le_pow_right (by norm_num) hk
    have h2 : (2 : Nat) ^ 54 = 2 ^ 53 * 2 := pow_succ 2 53
    have h3 : (0 : Nat) < 2 ^ 53 := pow_pos (by norm_num) _
    omega
  have hbit : bitLen (2 ^ k - 1) = k := bitLen_two_pow_sub_one k (by omega)
  have hprod : (2 : Nat) ^ 53 * 2 ^ (k - 53) = 2 ^ k := by
    rw [← pow_add]
    congr 1
    omega
  have hep : (0 : Nat) < 2 ^ (k - 53) := pow_pos (by norm_num) _
  have h53p : (0 : Nat) < 2 ^ 53 := pow_pos (by norm_num) _
  have hkey : 2 ^ k - 1 = (2 ^ (k - 53) - 1) + (2 ^ 53 - 1) * 2 ^ (k - 53) := by
    have h1 : ((2 : Nat) ^ 53 - 1) * 2 ^ (k - 53) = 2 ^ 53 * 2 ^ (k - 53) - 2 ^ (k - 53) := by
      rw [Nat.sub_mul, one_mul]
    omega
  have hq : (2 ^ k - 1) / 2 ^ (k - 53) = 2 ^ 53 - 1 := by
    rw [hkey, Nat.add_mul_div_right _ _ hep, Nat.div_eq_of_lt (by omega)]
    omega
  have hr : (2 ^ k - 1) % 2 ^ (k - 53) = 2 ^ (k - 53) - 1 := by
    rw [hkey, Nat.add_mul_mod_self_right]
    exact Nat.mod_eq_of_lt (by omega)
  have hform : roundFloat (2 ^ k - 1)
      = if 2 ^ (bitLen (2 ^ k - 1) - 53 - 1) < (2 ^ k - 1) % 2 ^ (bitLen (2 ^ k - 1) - 53)
          ∨ ((2 ^ k - 1) % 2 ^ (bitLen (2 ^ k - 1) - 53)
              = 2 ^ (bitLen (2 ^ k - 1) - 53 - 1)
            ∧ ((2 ^ k - 1) / 2 ^ (bitLen (2 ^ k - 1) - 53)) % 2 = 1)
        then ((2 ^ k - 1) / 2 ^ (bitLen (2 ^ k - 1) - 53) + 1)
              * 2 ^ (bitLen (2 ^ k - 1) - 53)
        else (2 ^ k - 1) / 2 ^ (bitLen (2 ^ k - 1) - 53)
              * 2 ^ (bitLen (2 ^ k - 1) - 53) := by
    simp only [roundFloat, if_neg hbig]
  rw [hform, hbit, hq, hr]
  have hcond : 2 ^ (k - 53 - 1) < 2 ^ (k - 53) - 1
      ∨ (2 ^ (k - 53) - 1 = 2 ^ (k - 53 - 1) ∧ (2 ^ 53 - 1) % 2 = 1) := by
    by_cases hke : k = 54
    · subst hke
      right
      constructor
      · norm_num
      · have h1 : (2 : Nat) ^ 53 = 2 ^ 52 * 2 := pow_succ 2 52
        omega
    · left
      have hsp : (2 : Nat) ^ (k - 53) = 2 ^ (k - 53 - 1) * 2 := by
        rw [← pow_succ]
        congr 1
        omega
      have hp2 : (2 : Nat) ≤ 2 ^ (k - 53 - 1) := by
        have h1 : (2 : Nat) ^ 1 ≤ 2 ^ (k - 53 - 1) :=
          Nat.pow_le_pow_right (by norm_num) (by omega)
        norm_num at h1
        omega
      omega
  rw [if_pos hcond]
  have hfin : 2 ^ 53 - 1 + 1 = 2 ^ 53 := by omega
  rw [hfin, hprod]

theorem pyFloat_two_pow_64 : pyFloat (2 ^ 64 - 1) = .ok (2 ^ 64) := by
  have h := roundFloat_two_pow_sub_one 64 (by norm_num)
  simp only [pyFloat, h]
  rw [if_pos (Nat.pow_lt_pow_right (by norm_num) (by norm_num))]

theorem pyFloat_two_pow_1024 : pyFloat (2 ^ 1024 - 1) = .error .overflow := by
  have h := roundFloat_two_pow_sub_one 1024 (by norm_num)
  simp only [pyFloat, h]
  rw [if_neg (by omega)]

/-- C1 counterexample: the claim says the transform places exactly
`Σ bits·2^(k−idx−1)` in each cell; on the single all-ones 64-character
row with `k = 64` (which divides `L = 64`) the positional value is
`2 ^ 64 − 1`, but the float64 store rounds it up and the program's
matrix holds `2 ^ 64`. -/
theorem c1_counterexample :
    (64 : Nat) ∣ 64 ∧
      transform_to_vla [repOnes 64] 64 = .ok [[18446744073709551616]] ∧
      bitsValBE (sliceBits [repOnes 64] 64 0 0) = 18446744073709551615 ∧
      (18446744073709551616 : Nat) ≠ 18446744073709551615 := by
  refine ⟨⟨1, rfl⟩, ?_, by decide, by norm_num⟩
  rw [transform_ones 64 64 (by norm_num) (by norm_num) (by norm_num),
    pyFloat_two_pow_64]
  rfl

/-- C1 amended: for `'0'`/`'1'` rows of common length `L`, `k ∣ L` and
`k ≤ 53` (so every group value is below `2 ^ 53` and float64 stores it
exactly), the transform succeeds and cell `(i, j)` of its matrix holds
exactly the positional-weight value of the `k`-bit slice
`[j·k, (j+1)·k)` of row `i`; an all-`'0'` slice yields `0`.  (For
`k > 53` the stored cell is the float64 rounding of that value, which
can differ: see the counterexample.) -/
theorem c1_amended_cell_positional_value (enc : List String) (L k i j : Nat)
    (hL : ∀ s ∈ enc, s.length = L)
    (h01 : ∀ s ∈ enc, ∀ c ∈ s.data, c = '0' ∨ c = '1')
    (hk0 : 0 < k) (hk : k ∣ L) (hk53 : k ≤ 53)
    (hi : i < enc.length) (hj : j < L / k) :
    transform_to_vla enc k = Except.ok (transform_exact enc k) ∧
      ((transform_exact enc k).getD i []).getD j 0 = bitsValBE (sliceBits enc k i j) ∧
      ((∀ c ∈ ((enc.getD i "").data.drop (j * k)).take k, c = '0') →
        ((transform_exact enc k).getD i []).getD j 0 = 0) := by
  refine ⟨?_, cell_eq_bitsValBE enc L k i j hL h01 hk0 hi hj, fun hz => ?_⟩
  · rw [transform_to_vla_ok enc L k hL h01 hk0 (by omega),
      transform_stored_eq_exact enc L k hL h01 hk0 hk53]
  · rw [cell_eq_bitsValBE enc L k i j hL h01 hk0 hi hj]
    apply bitsValBE_eq_zero
    intro b hb
    simp only [sliceBits, List.mem_map] at hb
    obtain ⟨c, hc, rfl⟩ := hb
    rw [hz c hc]
    rfl

theorem c1_amended_cell_positional_value_witness :
    (∀ s ∈ ["10"], s.length = 2) ∧
      (∀ s ∈ ["10"], ∀ c ∈ s.data, c = '0' ∨ c = '1') ∧
      0 < 2 ∧ (2 : Nat) ∣ 2 ∧ 2 ≤ 53 ∧ 0 < 1 ∧ 0 < 2 / 2 ∧
      (transform_to_vla ["10"] 2 = Except.ok (transform_exact ["10"] 2) ∧
        ((transform_exact ["10"] 2).getD 0 []).getD 0 0 =
          bitsValBE (sliceBits ["10"] 2 0 0) ∧
        ((∀ c ∈ (((["10"] : List String).getD 0 "").data.drop (0 * 2)).take 2, c = '0') →
          ((transform_exact ["10"] 2).getD 0 []).getD 0 0 = 0)) :=
  ⟨by decide, by decide, by decide, by decide, by decide, by decide, by decide,
    c1_amended_cell_positional_value ["10"] 2 2 0 0 (by decide) (by decide)
      (by decide) (by decide) (by decide) (by decide) (by decide)⟩

/-- C4 counterexample: `64 ∈ divisors(64)`, yet on the all-ones
64-character row the program's cell holds `2 ^ 64`, which is not
strictly below `2 ^ k = 2 ^ 64`: the float64 store rounds `2 ^ 64 − 1`
up to `2 ^ 64`. -/
theorem c4_counterexample :
    64 ∈ find_divisors 64 ∧
      transform_to_vla [repOnes 64] 64 = .ok [[18446744073709551616]] ∧
      ¬ ((18446744073709551616 : Nat) < 2 ^ 64) := by
  refine ⟨by decide, ?_, by norm_num⟩
  rw [transform_ones 64 64 (by norm_num) (by norm_num) (by norm_num),
    pyFloat_two_pow_64]
  rfl

/-- C4 amended: for `k ∈ find_divisors L` with `k ≤ 1023` the transform
succeeds; the matrix has `N` rows and `L / k` columns and every stored
cell is at most `2 ^ k`; when additionally `k ≤ 53` (exact float64
range) every cell is strictly below `2 ^ k`, as originally claimed. -/
theorem c4_amended_shape_and_range (enc : List String) (L k : Nat)
    (hL : ∀ s ∈ enc, s.length = L)
    (h01 : ∀ s ∈ enc, ∀ c ∈ s.data, c = '0' ∨ c = '1')
    (hk : k ∈ find_divisors L) (hk1023 : k ≤ 1023) :
    transform_to_vla enc k = Except.ok (transform_stored enc k) ∧
      (transform_stored enc k).length = enc.length ∧
      (∀ row ∈ transform_stored enc k, row.length = L / k) ∧
      (∀ row ∈ transform_stored enc k, ∀ x ∈ row, x ≤ 2 ^ k) ∧
      (k ≤ 53 → ∀ row ∈ transform_stored enc k, ∀ x ∈ row, x < 2 ^ k) := by
  obtain ⟨hk1, hkL, hmod⟩ := mem_find_divisors.mp hk
  obtain ⟨hlen, hrows⟩ := transform_stored_shape enc L k hL
  have hcell : ∀ s ∈ enc, ∀ t, t < L / k → cellValue s k t < 2 ^ k :=
    fun s hs t ht => (cellValue_slice s L k t (hL s hs) (h01 s hs) hk1 ht).2
  refine ⟨transform_to_vla_ok enc L k hL h01 hk1 hk1023, hlen, hrows, ?_, ?_⟩
  · intro row hrow x hx
    simp only [transform_stored, List.mem_map] at hrow
    obtain ⟨s, hs, rfl⟩ := hrow
    simp only [List.mem_map, List.mem_range] at hx
    obtain ⟨t, ht, rfl⟩ := hx
    have hne : enc ≠ [] := List.ne_nil_of_mem hs
    rw [headD_length enc L hne hL] at ht
    exact roundFloat_le_pow _ k (hcell s hs t ht)
  · intro hk53 row hrow x hx
    simp only [transform_stored, List.mem_map] at hrow
    obtain ⟨s, hs, rfl⟩ := hrow
    simp only [List.mem_map, List.mem_range] at hx
    obtain ⟨t, ht, rfl⟩ := hx
    have hne : enc ≠ [] := List.ne_nil_of_mem hs
    rw [headD_length enc L hne hL] at ht
    have h1 := hcell s hs t ht
    have h2 : cellValue s k t < 2 ^ 53 :=
      lt_of_lt_of_le h1 (Nat.pow_le_pow_right (by norm_num) hk53)
    simp only [cellStored]
    rw [roundFloat_small _ h2]
    exact h1

theorem c4_amended_shape_and_range_witness :
    (∀ s ∈ ["0100000101000010"], s.length = 16) ∧
      (∀ s ∈ ["0100000101000010"], ∀ c ∈ s.data, c = '0' ∨ c = '1') ∧
      8 ∈ find_divisors 16 ∧ 8 ≤ 1023 ∧
      (transform_to_vla ["0100000101000010"] 8 =
          Except.ok (transform_stored ["0100000101000010"] 8) ∧
        (transform_stored ["0100000101000010"] 8).length = 1 ∧
        (∀ row ∈ transform_stored ["0100000101000010"] 8, row.length = 16 / 8) ∧
        (∀ row ∈ transform_stored ["0100000101000010"] 8, ∀ x ∈ row, x ≤ 2 ^ 8) ∧
        (8 ≤ 53 → ∀ row ∈ transform_stored ["0100000101000010"] 8,
          ∀ x ∈ row, x < 2 ^ 8)) :=
  ⟨by decide, by decide, by decide, by decide,
    c4_amended_shape_and_range ["0100000101000010"] 16 8 (by decide) (by decide)
      (by decide) (by decide)⟩

/-- C9: on `'0'`/`'1'` input the sentinel-rewrite-and-recompute step is
a no-op: the full transform and the simplified transform agree —
including the float64 store and any overflow, since both hand the same
`r20` to it. -/
theorem c9_sentinel_rewrite_noop (enc : List String) (k : Nat)
    (h01 : ∀ s ∈ enc, ∀ c ∈ s.data, c = '0' ∨ c = '1') :
    transform_to_vla enc k = transform_to_vla_simple enc k := by
  simp only [transform_to_vla, transform_to_vla_simple]
  apply exceptMap_congr
  intro s hs
  apply exceptMap_congr
  intro t _
  have hb1 : ∀ b ∈ groupBits s k t, b ≤ 1 := groupBits_le_one s k t (h01 s hs)
  have hid : (groupBits s k t).map (fun bit => if 0 ≤ bit then bit else 2)
      = groupBits s k t := by simp
  have hid2 : (groupBits s k t).map (fun bit => if bit = 2 then 0 else bit)
      = groupBits s k t :=
    (List.map_congr_left (fun b hb => by
      have h1 := hb1 b hb
      have h2 : b ≠ 2 := by omega
      simp [h2])).trans (List.map_id _)
  simp only [cellFloat, cellFloatSimple, hid, hid2]

theorem c9_sentinel_rewrite_noop_witness :
    (∀ s ∈ ["01"], ∀ c ∈ s.data, c = '0' ∨ c = '1') ∧
      transform_to_vla ["01"] 1 = transform_to_vla_simple ["01"] 1 :=
  ⟨by decide, c9_sentinel_rewrite_noop ["01"] 1 (by decide)⟩

set_option maxRecDepth 8000 in
/-- C5 counterexample: the claim says `transform` must fail with
`GroupSizeMismatchError` when `k` does not divide the common length; the
code has no such error and no divisibility check — on `["101"]` with
`k = 2` (and `2 ∤ 3`) it returns the matrix `[[2]]`. -/
theorem c5_counterexample :
    ¬ (2 ∣ 3) ∧ transform_to_vla ["101"] 2 = .ok [[2]] :=
  ⟨by decide, rfl⟩

/-- C5 amended: the transform never raises a group-size error: for
`'0'`/`'1'` batches of common length `L` and `1 ≤ k ≤ L` not dividing
`L`, with `k ≤ 1023` (so no group value can overflow float64), it
returns without error a matrix with one row per input and `⌊L/k⌋`
columns.  (For `k ≥ 1024` the float64 store itself can fail with
`OverflowError` — see the C10 counterexample — but never with a
group-size check.) -/
theorem c5_amended_no_failure (enc : List String) (L k : Nat)
    (hne : enc ≠ []) (hL : ∀ s ∈ enc, s.length = L)
    (h01 : ∀ s ∈ enc, ∀ c ∈ s.data, c = '0' ∨ c = '1')
    (hk1 : 1 ≤ k) (hkL : k ≤ L) (hnd : ¬ k ∣ L) (hk1023 : k ≤ 1023) :
    transform_to_vla enc k = Except.ok (transform_stored enc k) ∧
      (transform_stored enc k).length = enc.length ∧
      ∀ row ∈ transform_stored enc k, row.length = L / k := by
  obtain ⟨hlen, hrows⟩ := transform_stored_shape enc L k hL
  exact ⟨transform_to_vla_ok enc L k hL h01 hk1 hk1023, hlen, hrows⟩

/-- `getD` at an index below `m` is determined by the `m`-prefix. -/
theorem getD_eq_of_take_eq (l l' : List Char) (m idx : Nat) (d : Char)
    (h : l.take m = l'.take m) (hidx : idx < m) :
    l.getD idx d = l'.getD idx d := by
  rw [List.getD_eq_getElem?_getD, List.getD_eq_getElem?_getD]
  have h1 : (l.take m)[idx]? = (l'.take m)[idx]? := by rw [h]
  rw [List.getElem?_take, List.getElem?_take, if_pos hidx, if_pos hidx] at h1
  rw [h1]

theorem c5_amended_no_failure_witness :
    (["101"] : List String) ≠ [] ∧ (∀ s ∈ ["101"], s.length = 3) ∧
      (∀ s ∈ ["101"], ∀ c ∈ s.data, c = '0' ∨ c = '1') ∧
      1 ≤ 2 ∧ 2 ≤ 3 ∧ ¬ (2 ∣ 3) ∧ 2 ≤ 1023 ∧
      (transform_to_vla ["101"] 2 = Except.ok (transform_stored ["101"] 2) ∧
        (transform_stored ["101"] 2).length = 1 ∧
        ∀ row ∈ transform_stored ["101"] 2, row.length = 3 / 2) :=
  ⟨by decide, by decide, by decide, by decide, by decide, by decide, by decide,
    c5_amended_no_failure ["101"] 3 2 (by decide) (by decide) (by decide)
      (by decide) (by decide) (by decide) (by decide)⟩

/-- C10 counterexample: the claim says the transform returns *without
error* for every `1 ≤ k ≤ L` not dividing `L`; on the single all-ones
1025-character row with `k = 1024` (`1024 ∤ 1025`) the one group value
is `2 ^ 1024 − 1`, whose float64 conversion raises `OverflowError`, so
the transform fails. -/
theorem c10_counterexample :
    1 ≤ 1024 ∧ 1024 ≤ 1025 ∧ ¬ ((1024 : Nat) ∣ 1025) ∧
      (∀ c ∈ (repOnes 1025).data, c = '0' ∨ c = '1') ∧
      transform_to_vla [repOnes 1025] 1024 = .error PipelineError.overflow := by
  refine ⟨by norm_num, by norm_num, by decide, ?_, ?_⟩
  · intro c hc
    rw [show (repOnes 1025).data = List.replicate 1025 '1' from rfl] at hc
    exact Or.inr (List.eq_of_mem_replicate hc)
  · rw [transform_ones 1025 1024 (by norm_num) (by norm_num) (by norm_num),
      pyFloat_two_pow_1024]
    rfl

/-- C10 amended: for `'0'`/`'1'` batches of common length `L` and
`1 ≤ k ≤ L` not dividing `L`, with `k ≤ 1023` (so the float64 store
cannot overflow), the transform returns without error a matrix of shape
`N × ⌊L/k⌋` computed from only the first `⌊L/k⌋·k` bits of each row:
two batches whose rows agree on that prefix produce identical results. -/
theorem c10_trailing_bits_ignored (enc enc' : List String) (L k : Nat)
    (hne : enc ≠ [])
    (hL : ∀ s ∈ enc, s.length = L) (hL' : ∀ s ∈ enc', s.length = L)
    (h01 : ∀ s ∈ enc, ∀ c ∈ s.data, c = '0' ∨ c = '1')
    (hk1 : 1 ≤ k) (hkL : k ≤ L) (hnd : ¬ k ∣ L) (hk1023 : k ≤ 1023)
    (hagree : List.Forall₂
      (fun s t : String => s.data.take (L / k * k) = t.data.take (L / k * k)) enc enc') :
    transform_to_vla enc k = Except.ok (transform_stored enc k) ∧
      (transform_stored enc k).length = enc.length ∧
      (∀ row ∈ transform_stored enc k, row.length = L / k) ∧
      transform_to_vla enc k = transform_to_vla enc' k := by
  obtain ⟨hlen, hrows⟩ := transform_stored_shape enc L k hL
  refine ⟨transform_to_vla_ok enc L k hL h01 hk1 hk1023, hlen, hrows, ?_⟩
  have hne' : enc' ≠ [] := by
    intro h
    subst h
    rw [List.forall₂_nil_right_iff] at hagree
    exact hne hagree
  have hh : (enc.headD "").length = L := headD_length enc L hne hL
  have hh' : (enc'.headD "").length = L := headD_length enc' L hne' hL'
  simp only [transform_to_vla, hh, hh']
  apply exceptMap_eq_of_forall₂ hagree
  intro s t hst
  apply exceptMap_congr
  intro i hi
  rw [List.mem_range] at hi
  have hgb : groupBits s k i = groupBits t k i := by
    apply List.map_congr_left
    intro j hj
    rw [List.mem_range] at hj
    have hlt : i * k + j < L / k * k := by
      have h2 : (i + 1) * k ≤ L / k * k := Nat.mul_le_mul_right _ hi
      have h3 : (i + 1) * k = i * k + k := Nat.succ_mul i k
      omega
    rw [getD_eq_of_take_eq s.data t.data (L / k * k) (i * k + j) '0' hst hlt]
  simp only [cellFloat, hgb]

theorem c10_trailing_bits_ignored_witness :
    (["101"] : List String) ≠ [] ∧ (∀ s ∈ ["101"], s.length = 3) ∧
      (∀ s ∈ ["100"], s.length = 3) ∧
      (∀ s ∈ ["101"], ∀ c ∈ s.data, c = '0' ∨ c = '1') ∧
      1 ≤ 2 ∧ 2 ≤ 3 ∧ ¬ (2 ∣ 3) ∧ 2 ≤ 1023 ∧
      List.Forall₂
        (fun s t : String => s.data.take (3 / 2 * 2) = t.data.take (3 / 2 * 2))
        ["101"] ["100"] ∧
      (transform_to_vla ["101"] 2 = Except.ok (transform_stored ["101"] 2) ∧
        (transform_stored ["101"] 2).length = 1 ∧
        (∀ row ∈ transform_stored ["101"] 2, row.length = 3 / 2) ∧
        transform_to_vla ["101"] 2 = transform_to_vla ["100"] 2) :=
  ⟨by decide, by decide, by decide, by decide, by decide, by decide, by decide,
    by decide, List.Forall₂.cons (by decide) List.Forall₂.nil,
    c10_trailing_bits_ignored ["101"] ["100"] 3 2 (by decide) (by decide)
      (by decide) (by decide) (by decide) (by decide) (by decide) (by decide)
      (List.Forall₂.cons (by decide) List.Forall₂.nil)⟩

/-! ### Binary-encoder lemmas -/

theorem digits_two_256 : Nat.digits 2 256 = [0, 0, 0, 0, 0, 0, 0, 0, 1] := by
  norm_num [Nat.digits_def']

theorem digits_two_getD (i : Nat) :
    ∀ n : Nat, (Nat.digits 2 n).getD i 0 = n / 2 ^ i % 2 := by
  induction i with
  | zero =>
    intro n
    rcases Nat.eq_zero_or_pos n with rfl | hn
    · simp
    · rw [Nat.digits_def' (by norm_num) hn]
      simp
  | succ i ih =>
    intro n
    rcases Nat.eq_zero_or_pos n with rfl | hn
    · simp
    · rw [Nat.digits_def' (by norm_num) hn, List.getD_cons_succ, ih (n / 2),
        Nat.div_div_eq_div_mul, ← Nat.pow_succ']

theorem digits_two_len_le (n : Nat) (h : n < 256) : (Nat.digits 2 n).length ≤ 8 := by
  rcases Nat.eq_zero_or_pos n with rfl | hn
  · simp
  · by_contra hgt
    push_neg at hgt
    have h1 : 2 ^ (Nat.digits 2 n).length ≤ 2 * n :=
      Nat.base_pow_length_digits_le 2 n (by norm_num) (by omega)
    have h2 : (2 : Nat) ^ 9 ≤ 2 ^ (Nat.digits 2 n).length :=
      Nat.pow_le_pow_right (by norm_num) (by omega)
    norm_num at h2
    omega

theorem digits_two_len_gt (n : Nat) (h : 255 < n) : 8 < (Nat.digits 2 n).length := by
  by_contra hle
  push_neg at hle
  have h1 : n < 2 ^ (Nat.digits 2 n).length :=
    Nat.lt_base_pow_length_digits (by norm_num)
  have h2 : (2 : Nat) ^ (Nat.digits 2 n).length ≤ 2 ^ 8 :=
    Nat.pow_le_pow_right (by norm_num) hle
  norm_num at h2
  omega

theorem pyBin_length (n : Nat) : (pyBin n).length = (Nat.digits 2 n).length := by
  simp [pyBin]

theorem format08b_data (n : Nat) :
    (format08b n).data = List.replicate (8 - (pyBin n).length) '0' ++ pyBin n := rfl

theorem format08b_length (n : Nat) :
    (format08b n).data.length = max 8 (Nat.digits 2 n).length := by
  rw [format08b_data]
  simp only [List.length_append, List.length_replicate, pyBin_length]
  omega

/-- For code points below 256, the embedding of `f'\x7bord(c):08b\x7d'` is
exactly the spec's big-endian 8-bit expansion. -/
theorem format08b_eq_bits8 (n : Nat) (h : n < 256) : (format08b n).data = bits8 n := by
  have hl : (Nat.digits 2 n).length ≤ 8 := digits_two_len_le n h
  have hnlt : n < 2 ^ (Nat.digits 2 n).length :=
    Nat.lt_base_pow_length_digits (by norm_num)
  apply List.ext_getElem?
  intro t
  by_cases ht8 : t < 8
  · have hrhs : (bits8 n)[t]? = some (Char.ofNat (48 + n / 2 ^ (7 - t) % 2)) := by
      simp [bits8, List.getElem?_range ht8]
    rw [hrhs, format08b_data]
    by_cases hc : t < 8 - (Nat.digits 2 n).length
    · rw [List.getElem?_append_left
        (by simp only [List.length_replicate, pyBin_length]; omega)]
      rw [List.getElem?_replicate, if_pos (by rw [pyBin_length]; omega)]
      have hdiv : n / 2 ^ (7 - t) = 0 :=
        Nat.div_eq_of_lt
          (lt_of_lt_of_le hnlt (Nat.pow_le_pow_right (by norm_num) (by omega)))
      rw [hdiv]
    · push_neg at hc
      rw [List.getElem?_append_right
        (by simp only [List.length_replicate, pyBin_length]; omega)]
      simp only [List.length_replicate, pyBin_length, pyBin, List.getElem?_map,
        List.length_map, List.length_reverse]
      have hl0 : 0 < (Nat.digits 2 n).length := by omega
      rw [List.getElem?_reverse (by omega)]
      have hidx : (Nat.digits 2 n).length - 1 - (t - (8 - (Nat.digits 2 n).length))
          = 7 - t := by omega
      rw [hidx]
      have h7t : 7 - t < (Nat.digits 2 n).length := by omega
      rw [List.getElem?_eq_getElem h7t]
      rw [show (Nat.digits 2 n)[7 - t] = (Nat.digits 2 n).getD (7 - t) 0 from
        (List.getD_eq_getElem _ _ h7t).symm]
      rw [digits_two_getD]
      rfl
  · rw [List.getElem?_eq_none (by rw [format08b_length]; omega),
      List.getElem?_eq_none (by simp only [bits8, List.length_map, List.length_range]; omega)]

theorem smiles_to_binary_data (s : String) (m : Nat) :
    (smiles_to_binary s m).data =
      (s.data.map (fun c => (format08b c.toNat).data)).flatten ++
        List.replicate
          (m - ((s.data.map (fun c => (format08b c.toNat).data)).flatten).length)
          '0' := rfl

/-- With all code points below 256, the unpadded binary sequence of `s`
has length `8 · |s|`. -/
theorem binseq_length (s : String) (h : ∀ c ∈ s.data, c.toNat ≤ 255) :
    ((s.data.map (fun c => (format08b c.toNat).data)).flatten).length = 8 * s.length := by
  rw [List.length_flatten, List.map_map]
  rw [show (List.length ∘ fun c => (format08b c.toNat).data)
      = (fun c : Char => ((format08b c.toNat).data).length) from rfl]
  have hmap : s.data.map (fun c : Char => ((format08b c.toNat).data).length)
      = s.data.map (fun _ => 8) :=
    List.map_congr_left (fun c hc => by
      rw [format08b_length]
      have h1 := digits_two_len_le c.toNat (by have := h c hc; omega)
      omega)
  rw [hmap, List.map_const', List.sum_replicate, smul_eq_mul]
  show s.data.length * 8 = 8 * s.data.length
  omega

/-- C2: for a non-empty batch of raw strings with all code points below
256, each encoded string has length `L = 8 · maxlen`, its first
`8 · |raw|` characters are the big-endian 8-bit expansions of the code
points, and the remaining characters are all `'0'`. -/
theorem c2_binary_encoder (raws : List String) (h1 : raws ≠ [])
    (h2 : ∀ s ∈ raws, ∀ c ∈ s.data, c.toNat ≤ 255) :
    ∀ s ∈ raws,
      (smiles_to_binary s (max_smiles_length raws)).length = max_smiles_length raws ∧
      (smiles_to_binary s (max_smiles_length raws)).data.take (8 * s.length) =
        (s.data.map (fun c => bits8 c.toNat)).flatten ∧
      (smiles_to_binary s (max_smiles_length raws)).data.drop (8 * s.length) =
        List.replicate (max_smiles_length raws - 8 * s.length) '0' := by
  intro s hs
  have hc := h2 s hs
  have hbl := binseq_length s hc
  have hsle : 8 * s.length ≤ max_smiles_length raws := by
    unfold max_smiles_length
    have := mem_le_foldr_max (raws.map String.length) s.length
      (List.mem_map_of_mem _ hs)
    omega
  refine ⟨?_, ?_, ?_⟩
  · show (smiles_to_binary s (max_smiles_length raws)).data.length = _
    rw [smiles_to_binary_data]
    simp only [List.length_append, List.length_replicate, hbl]
    omega
  · rw [smiles_to_binary_data, ← hbl, List.take_left]
    congr 1
    exact List.map_congr_left (fun c hc' =>
      format08b_eq_bits8 c.toNat (by have := hc c hc'; omega))
  · rw [smiles_to_binary_data, ← hbl, List.drop_left, hbl]

theorem c2_binary_encoder_witness :
    (["A", "AB"] : List String) ≠ [] ∧
      (∀ s ∈ (["A", "AB"] : List String), ∀ c ∈ s.data, c.toNat ≤ 255) ∧
      (∀ s ∈ (["A", "AB"] : List String),
        (smiles_to_binary s (max_smiles_length ["A", "AB"])).length =
            max_smiles_length ["A", "AB"] ∧
          (smiles_to_binary s (max_smiles_length ["A", "AB"])).data.take (8 * s.length) =
            (s.data.map (fun c => bits8 c.toNat)).flatten ∧
          (smiles_to_binary s (max_smiles_length ["A", "AB"])).data.drop (8 * s.length) =
            List.replicate (max_smiles_length ["A", "AB"] - 8 * s.length) '0') :=
  ⟨by decide, by decide, c2_binary_encoder ["A", "AB"] (by decide) (by decide)⟩

/-- C6 counterexample: the claim says a code point above 255 makes the
encoder fail with `EncodingRangeError`; the code has no such error —
Python's `08` format is a minimum width, so `'Ā'` (code point 256)
yields the 9-character expansion `100000000`, and
`smiles_to_binary "Ā" 16` returns the plain string below. -/
theorem c6_counterexample :
    smiles_to_binary "Ā" 16 = "1000000000000000" := by
  have hpb : pyBin 256 = ['1', '0', '0', '0', '0', '0', '0', '0', '0'] := by
    rw [pyBin, digits_two_256]
    rfl
  apply String.ext
  rw [smiles_to_binary_data]
  rw [show "Ā".data = ['Ā'] from rfl, List.map_cons, List.map_nil,
    show ('Ā'.toNat) = 256 from rfl, format08b_data, hpb]
  rfl

/-- C6 amended: the encoder does not fail on a character whose code
point exceeds 255; instead that character's expansion
`f'\x7bord(c):08b\x7d'` is strictly longer than 8 characters (breaking the
8-bits-per-character invariant silently). -/
theorem c6_amended_overlong_expansion (c : Char) (h : 255 < c.toNat) :
    8 < (format08b c.toNat).length := by
  have h1 := digits_two_len_gt c.toNat h
  have h2 := format08b_length c.toNat
  show 8 < (format08b c.toNat).data.length
  omega

theorem c6_amended_overlong_expansion_witness :
    255 < 'Ā'.toNat ∧ 8 < (format08b 'Ā'.toNat).length :=
  ⟨by decide, c6_amended_overlong_expansion 'Ā' (by decide)⟩

/-- C8 counterexample: the non-empty batch `[""]` (one empty string)
gives `L = max_smiles_length [""] = 0`, refuting "always at least 8";
and `find_divisors 0` does not fail — it returns `[]` (the Python loop
`range(1, 1)` is empty), refuting the `InvalidLengthError` clause. -/
theorem c8_counterexample :
    max_smiles_length [""] = 0 ∧ ¬ 8 ≤ max_smiles_length [""] ∧
      find_divisors 0 = [] := by decide

/-- C8 amended: for a batch containing at least one non-empty string
(with all code points below 256), the length handed to the divisor
enumerator equals `max_smiles_length` and is at least 8; and on input
`0` the enumerator returns `[]` without failing. -/
theorem c8_amended_length_handoff (raws : List String) (h1 : raws ≠ [])
    (h2 : ∀ s ∈ raws, ∀ c ∈ s.data, c.toNat ≤ 255)
    (h3 : ∃ s ∈ raws, 1 ≤ s.length) :
    ((raws.map (fun s => smiles_to_binary s (max_smiles_length raws))).headD "").length
        = max_smiles_length raws ∧
      8 ≤ max_smiles_length raws ∧ find_divisors 0 = [] := by
  refine ⟨?_, ?_, rfl⟩
  · cases raws with
    | nil => exact absurd rfl h1
    | cons r rest =>
      show (smiles_to_binary r (max_smiles_length (r :: rest))).length = _
      exact (c2_binary_encoder (r :: rest) h1 h2 r (List.mem_cons_self r rest)).1
  · obtain ⟨s, hs, hlen⟩ := h3
    unfold max_smiles_length
    have := mem_le_foldr_max (raws.map String.length) s.length
      (List.mem_map_of_mem _ hs)
    omega

theorem c8_amended_length_handoff_witness :
    (["A"] : List String) ≠ [] ∧
      (∀ s ∈ (["A"] : List String), ∀ c ∈ s.data, c.toNat ≤ 255) ∧
      (∃ s ∈ (["A"] : List String), 1 ≤ s.length) ∧
      (((["A"] : List String).map
            (fun s => smiles_to_binary s (max_smiles_length ["A"]))).headD "").length
          = max_smiles_length ["A"] ∧
      8 ≤ max_smiles_length ["A"] ∧ find_divisors 0 = [] :=
  ⟨by decide, by decide, by decide,
    c8_amended_length_handoff ["A"] (by decide) (by decide) (by decide)⟩

end VLA
